import Mathlib

/-!
Verification development for the reactive nested sampling engine described by
the UltraNest specification.  The repository's own material contains only the
usage tutorial (`docs/usage-spectral-line.ipynb`), which fixes the external
call contract and the two user functions `my_prior_transform` and
`my_likelihood`; the engine itself is modelled from the specification text,
component by component, and the stated properties are proved about that model.

Rational numbers stand in for the engine's floating point values (the claims
under study are about control flow, ordering and exact recurrences, not about
rounding), and real numbers are used for the evidence accumulator and for the
tutorial's prior transform.
-/

namespace UltraNest

/-- Modelled from the spec: a raw log-likelihood value as returned by the
user-supplied likelihood function.  It is either a finite number or one of the
three non-finite IEEE values (NaN, +inf, -inf) that the adapter must guard
against. -/
inductive LogL where
  | finite (q : ℚ)
  | nan
  | posInf
  | negInf
deriving DecidableEq, Repr

/-- Whether a raw log-likelihood value is finite. -/
def LogL.isFinite : LogL → Bool
  | .finite _ => true
  | _ => false

/-- The fixed very-negative floor constant substituted for non-finite
likelihood values; the tutorial's `my_likelihood` uses `-1e100`. -/
def floorLogL : ℚ := -(10 ^ 100)

/-- Modelled from the spec (§4.1): the likelihood adapter.  A non-finite raw
result is replaced by the fixed floor constant; a finite result passes
through. -/
def adaptLogL (r : LogL) : LogL :=
  if r.isFinite then r else .finite floorLogL

/-- Numeric value of a (finite) log-likelihood; non-finite values, which the
adapter never lets through, are mapped to the floor constant. -/
def LogL.toRat : LogL → ℚ
  | .finite q => q
  | _ => floorLogL

/-- Modelled from the spec (§3): a Point is a sample in unit-cube space,
physical space, with its cached log-likelihood and a unique id. -/
structure Point where
  id : ℕ
  u : List ℚ
  theta : List ℚ
  logl : LogL
deriving DecidableEq, Repr

/-- Ordering key of a point: its log-likelihood value. -/
def keyOf (p : Point) : ℚ := p.logl.toRat

/-- The ids of a population, in order. -/
def ids (pop : List Point) : List ℕ := pop.map Point.id

/-- Sortedness of a population: ordering key `logl` ascending (spec §3). -/
def SortedPop (pop : List Point) : Prop :=
  List.Pairwise (fun a b => keyOf a ≤ keyOf b) pop

instance : DecidablePred SortedPop := fun pop =>
  List.instDecidablePairwise pop

/-- Ordered insertion into a logl-ascending population. -/
def insortPoint (p : Point) : List Point → List Point
  | [] => [p]
  | q :: t => if keyOf p ≤ keyOf q then p :: q :: t else q :: insortPoint p t

/-- Modelled from the spec (§4.2): `replace(old, new)` atomically removes
`old` and inserts `new`, keeping the logl-ascending order; replacing a point
that is not currently a member is a fatal contract violation, signalled by
`none`. -/
def replacePop (pop : List Point) (old new : Point) : Option (List Point) :=
  if old ∈ pop then some (insortPoint new (pop.erase old)) else none

theorem insortPoint_perm (p : Point) (l : List Point) :
    List.Perm (insortPoint p l) (p :: l) := by
  induction l with
  | nil => simp [insortPoint]
  | cons q t ih =>
    by_cases h : keyOf p ≤ keyOf q
    · simp [insortPoint, h]
    · simp only [insortPoint, h, if_false]
      exact (ih.cons q).trans (List.Perm.swap p q t)

theorem mem_insortPoint {p x : Point} {l : List Point} :
    x ∈ insortPoint p l ↔ x = p ∨ x ∈ l := by
  rw [(insortPoint_perm p l).mem_iff]
  simp

theorem insortPoint_sorted {p : Point} {l : List Point} (h : SortedPop l) :
    SortedPop (insortPoint p l) := by
  induction l with
  | nil => simp [insortPoint, SortedPop]
  | cons q t ih =>
    have hq := (List.pairwise_cons.1 h).1
    have ht := (List.pairwise_cons.1 h).2
    by_cases hle : keyOf p ≤ keyOf q
    · simp only [insortPoint, if_pos hle]
      refine List.pairwise_cons.2 ⟨?_, h⟩
      intro b hb
      rcases List.mem_cons.1 hb with rfl | hb
      · exact hle
      · exact hle.trans (hq b hb)
    · simp only [insortPoint, if_neg hle]
      push_neg at hle
      refine List.pairwise_cons.2 ⟨?_, ih ht⟩
      intro b hb
      rcases mem_insortPoint.1 hb with rfl | hb
      · exact le_of_lt hle
      · exact hq b hb

/-- In a sorted population the head (the engine's `worst()`) has minimal
log-likelihood. -/
theorem head_min_of_sorted {w : Point} {t : List Point}
    (h : SortedPop (w :: t)) : ∀ q ∈ w :: t, keyOf w ≤ keyOf q := by
  intro q hq
  rcases List.mem_cons.1 hq with rfl | hq
  · simp
  · exact (List.pairwise_cons.1 h).1 q hq

/-! ## Batch dispatcher (spec §4.4) -/

/-- Modelled from the spec: run configuration together with the external
collaborators (user transform, user likelihood, the RNG draw stream, and the
transient evaluation-infrastructure failure oracle). -/
structure Params where
  numLive : ℕ
  batchSize : ℕ
  maxIter : ℕ
  transform : List ℚ → List ℚ
  loglike : List ℚ → LogL
  draw : ℕ → List ℚ
  evalFail : ℕ → List ℚ → Bool

/-- A completion schedule: for each round and each dispatch attempt, the order
in which concurrent likelihood evaluations happen to finish. -/
def Sched : Type := ℕ → ℕ → List ℕ

/-- Construct a fully evaluated point from a unit-cube candidate: the physical
coordinates are cached via the prior transform, and the raw likelihood passes
through the non-finiteness adapter (spec §3, §4.1). -/
def mkPoint (P : Params) (i : ℕ) (c : List ℚ) : Point :=
  { id := i, u := c, theta := P.transform c
    logl := adaptLogL (P.loglike (P.transform c)) }

/-- One likelihood evaluation on the worker pool: it may fail transiently
(attempt-dependent), else yields the evaluated point. -/
def evalOne (P : Params) (att : ℕ) (i : ℕ) (c : List ℚ) : Option Point :=
  if P.evalFail att c then none else some (mkPoint P i c)

/-- Collect a list of optional results into an optional list: any single
failure fails the whole batch. -/
def allSome {α : Type} : List (Option α) → Option (List α)
  | [] => some []
  | none :: _ => none
  | some a :: t => (allSome t).map (fun l => a :: l)

/-- Parallel fan-out: evaluations are performed in completion order `σ`; each
result is tagged with its proposal index. -/
def fanOut (P : Params) (att base : ℕ) (σ : List ℕ) (cands : List (List ℚ)) :
    List (ℕ × Option Point) :=
  σ.map (fun i => (i, (cands.get? i).bind (fun c => evalOne P att (base + i) c)))

/-- Ordered fan-in: results are read back in proposal order, not completion
order (spec §4.4). -/
def fanIn (k : ℕ) (pairs : List (ℕ × Option Point)) : List (Option Point) :=
  (List.range k).map (fun i => (pairs.lookup i).bind id)

/-- Modelled from the spec (§4.4): `evaluate_batch` evaluates candidates
concurrently (in completion order `σ`) and returns the whole batch in
proposal order, or fails as a whole. -/
def evaluateBatch (P : Params) (att base : ℕ) (σ : List ℕ)
    (cands : List (List ℚ)) : Option (List Point) :=
  allSome (fanIn cands.length (fanOut P att base σ cands))

/-- Reference sequential evaluation, in proposal order. -/
def seqEvalB (P : Params) (att base : ℕ) (cands : List (List ℚ)) :
    Option (List Point) :=
  allSome ((List.range cands.length).map
    (fun i => (cands.get? i).bind (fun c => evalOne P att (base + i) c)))

/-- Modelled from the spec (§7): a failed batch is retried exactly once with
the same candidates, on a fresh attempt index and completion order, before
escalating to a fatal error. -/
def dispatchRetry (P : Params) (σ₁ σ₂ : List ℕ) (base att : ℕ)
    (cands : List (List ℚ)) : Option (List Point) :=
  match evaluateBatch P att base σ₁ cands with
  | some pts => some pts
  | none => evaluateBatch P (att + 1) base σ₂ cands

theorem allSome_length {α : Type} {l : List (Option α)} {xs : List α}
    (h : allSome l = some xs) : xs.length = l.length := by
  induction l generalizing xs with
  | nil =>
    simp only [allSome, Option.some.injEq] at h
    simp [← h]
  | cons o t ih =>
    rcases o with _ | a
    · exact Option.noConfusion h
    · rcases ht : allSome t with _ | l'
      · rw [allSome, ht] at h; simp at h
      · rw [allSome, ht] at h
        simp only [Option.map_some', Option.some.injEq] at h
        subst h
        simp [ih ht]

theorem allSome_mem {α : Type} {l : List (Option α)} {xs : List α}
    (h : allSome l = some xs) : ∀ x ∈ xs, some x ∈ l := by
  induction l generalizing xs with
  | nil =>
    simp only [allSome, Option.some.injEq] at h
    simp [← h]
  | cons o t ih =>
    rcases o with _ | a
    · exact Option.noConfusion h
    · rcases ht : allSome t with _ | l'
      · rw [allSome, ht] at h; simp at h
      · rw [allSome, ht] at h
        simp only [Option.map_some', Option.some.injEq] at h
        subst h
        intro x hx
        rcases List.mem_cons.1 hx with rfl | hx
        · exact List.mem_cons_self _ _
        · exact List.mem_cons_of_mem _ (ih ht x hx)

theorem lookup_map_self {β : Type} (f : ℕ → β) {l : List ℕ} {i : ℕ}
    (h : i ∈ l) : (l.map (fun j => (j, f j))).lookup i = some (f i) := by
  induction l with
  | nil => simp at h
  | cons j t ih =>
    rcases List.mem_cons.1 h with rfl | h
    · simp [List.lookup]
    · by_cases hij : i = j
      · subst hij; simp [List.lookup]
      · simp only [List.map, List.lookup]
        have : (i == j) = false := beq_false_of_ne hij
        rw [this]
        exact ih h

theorem lookup_mem {β : Type} {pairs : List (ℕ × β)} {i : ℕ} {v : β}
    (h : pairs.lookup i = some v) : (i, v) ∈ pairs := by
  induction pairs with
  | nil => simp [List.lookup] at h
  | cons p t ih =>
    rcases hbeq : (i == p.1) with _ | _
    · rw [List.lookup, hbeq] at h
      exact List.mem_cons_of_mem _ (ih h)
    · rw [List.lookup, hbeq] at h
      simp only [Option.some.injEq] at h
      have : i = p.1 := by simpa using hbeq
      subst h
      rw [this]
      exact List.mem_cons_self _ _

/-- With a completion order that is a permutation of the proposal indices,
concurrent evaluation with ordered fan-in gives exactly the sequential
proposal-order result: latency variance does not affect the batch output. -/
theorem evaluateBatch_perm {P : Params} {att base : ℕ} {σ : List ℕ}
    {cands : List (List ℚ)} (h : List.Perm σ (List.range cands.length)) :
    evaluateBatch P att base σ cands = seqEvalB P att base cands := by
  unfold evaluateBatch seqEvalB fanIn fanOut
  congr 1
  refine List.map_congr_left ?_
  intro i hi
  have hiσ : i ∈ σ := h.mem_iff.2 hi
  rw [lookup_map_self (fun j => (cands.get? j).bind
    (fun c => evalOne P att (base + j) c)) hiσ]
  rfl

/-- Members of a successfully evaluated batch are exactly the evaluated
candidates, identified by their proposal index. -/
theorem evaluateBatch_mem {P : Params} {att base : ℕ} {σ : List ℕ}
    {cands : List (List ℚ)} {pts : List Point}
    (h : evaluateBatch P att base σ cands = some pts) :
    ∀ p ∈ pts, ∃ i c, i < cands.length ∧ cands.get? i = some c ∧
      p = mkPoint P (base + i) c := by
  intro p hp
  have hmem := allSome_mem h p hp
  unfold fanIn at hmem
  rcases List.mem_map.1 hmem with ⟨i, hi, hval⟩
  have hik : i < cands.length := List.mem_range.1 hi
  rcases hlk : (fanOut P att base σ cands).lookup i with _ | v
  · rw [hlk] at hval; simp at hval
  · rw [hlk] at hval
    have hvp : v = some p := by simpa using hval
    subst hvp
    have hpair := lookup_mem hlk
    unfold fanOut at hpair
    rcases List.mem_map.1 hpair with ⟨j, _, hj⟩
    have hij : i = j := congrArg Prod.fst hj |>.symm
    subst hij
    have hv : (cands.get? i).bind (fun c => evalOne P att (base + i) c)
        = some p := congrArg Prod.snd hj
    rcases hc : cands.get? i with _ | c
    · rw [hc] at hv; simp at hv
    · rw [hc] at hv
      have hv : evalOne P att (base + i) c = some p := by simpa using hv
      unfold evalOne at hv
      by_cases hf : P.evalFail att c
      · rw [if_pos hf] at hv; simp at hv
      · rw [if_neg hf] at hv
        exact ⟨i, c, hik, hc, (Option.some.inj hv).symm⟩

theorem dispatchRetry_mem {P : Params} {σ₁ σ₂ : List ℕ} {base att : ℕ}
    {cands : List (List ℚ)} {pts : List Point}
    (h : dispatchRetry P σ₁ σ₂ base att cands = some pts) :
    ∀ p ∈ pts, ∃ i c, i < cands.length ∧ cands.get? i = some c ∧
      p = mkPoint P (base + i) c := by
  unfold dispatchRetry at h
  rcases h1 : evaluateBatch P att base σ₁ cands with _ | pts'
  · rw [h1] at h
    exact evaluateBatch_mem h
  · rw [h1] at h
    simp only [Option.some.injEq] at h
    subst h
    exact evaluateBatch_mem h1

/-! ## Engine state machine (spec §2, §4.7) -/

/-- Error taxonomy of terminal failures (spec §7). -/
inductive ErrKind where
  | regionDegeneracy
  | dispatcherFatal
  | contractViolation
  | emptyPopulation
deriving DecidableEq, Repr

/-- Controller status (spec §4.7). -/
inductive Status where
  | running
  | converged
  | failed (e : ErrKind)
deriving DecidableEq, Repr

/-- Modelled from the spec (§3, §4.7): the full engine state.  The evidence
state is carried as the removal trace (live-population size at removal time,
and the removed point's log-likelihood), from which the evidence accumulator
is replayed; the region state is derived from the live population and so does
not appear (spec §3). -/
structure EngineState where
  live : List Point
  dead : List Point
  trace : List (ℕ × ℚ)
  rng : ℕ
  nextId : ℕ
  iter : ℕ
  status : Status
deriving DecidableEq, Repr

/-- First point in proposal order whose likelihood exceeds the threshold;
`none` when the whole rejection budget is exhausted. -/
def pickFirst (lmin : ℚ) : List Point → Option Point
  | [] => none
  | p :: t => if lmin < keyOf p then some p else pickFirst lmin t

/-- Modelled from the spec (§4.3 edge case policy): the region degenerates
when the live population is empty or all live points are numerically
identical in unit-cube space (zero volume). -/
def degenerate : List Point → Bool
  | [] => true
  | p :: t => t.all (fun q => q.u == p.u)

/-- Modelled from the spec (§2, §4.7): one nested-sampling round.  The
controller takes the worst live point, draws a batch of candidates, has the
dispatcher evaluate them (with one retry), feeds them back in proposal order,
replaces the worst point by the first accepted candidate, appends the worst
point to the dead sequence together with the prior-volume bookkeeping datum
(the live-population size read at this removal), and advances. -/
def step (P : Params) (σ : Sched) (s : EngineState) : EngineState :=
  match s.status with
  | .converged => s
  | .failed _ => s
  | .running =>
    match s.live.head? with
    | none => { s with status := .failed .emptyPopulation }
    | some w =>
      if degenerate s.live then { s with status := .failed .regionDegeneracy }
      else
        match dispatchRetry P (σ s.iter 0) (σ s.iter 1) s.nextId (2 * s.iter)
            ((List.range P.batchSize).map (fun i => P.draw (s.rng + i))) with
        | none => { s with status := .failed .dispatcherFatal }
        | some pts =>
          match pickFirst (keyOf w) pts with
          | none => { s with status := .failed .regionDegeneracy }
          | some new =>
            match replacePop s.live w new with
            | none => { s with status := .failed .contractViolation }
            | some live' =>
              { live := live'
                dead := s.dead ++ [w]
                trace := s.trace ++ [(s.live.length, keyOf w)]
                rng := s.rng + P.batchSize
                nextId := s.nextId + P.batchSize
                iter := s.iter + 1
                status := if P.maxIter ≤ s.iter + 1 then .converged
                          else .running }

/-- Iterate the controller for a number of rounds. -/
def run (P : Params) (σ : Sched) : ℕ → EngineState → EngineState
  | 0, s => s
  | n + 1, s => run P σ n (step P σ s)

/-- Modelled from the spec (§4.7 initial state): the initial live population
is drawn directly from the prior with no likelihood constraint, and kept in
logl-ascending order. -/
def initState (P : Params) : EngineState :=
  { live := (List.range P.numLive).foldl
      (fun acc i => insortPoint (mkPoint P i (P.draw i)) acc) []
    dead := []
    trace := []
    rng := P.numLive
    nextId := P.numLive
    iter := 0
    status := .running }

theorem pickFirst_none_iff {lmin : ℚ} {l : List Point} :
    pickFirst lmin l = none ↔ ∀ p ∈ l, keyOf p ≤ lmin := by
  induction l with
  | nil => simp [pickFirst]
  | cons p t ih =>
    by_cases h : lmin < keyOf p
    · rw [pickFirst, if_pos h]
      refine iff_of_false (by simp) ?_
      intro hall
      exact absurd (hall p (List.mem_cons_self p t)) (not_le.2 h)
    · rw [pickFirst, if_neg h, ih]
      constructor
      · intro hall q hq
        rcases List.mem_cons.1 hq with rfl | hq
        · exact not_lt.1 h
        · exact hall q hq
      · intro hall q hq
        exact hall q (List.mem_cons_of_mem _ hq)

theorem pickFirst_mem {lmin : ℚ} {l : List Point} {x : Point}
    (h : pickFirst lmin l = some x) : x ∈ l ∧ lmin < keyOf x := by
  induction l with
  | nil => simp [pickFirst] at h
  | cons p t ih =>
    by_cases hp : lmin < keyOf p
    · rw [pickFirst, if_pos hp] at h
      simp only [Option.some.injEq] at h
      subst h
      exact ⟨List.mem_cons_self _ _, hp⟩
    · rw [pickFirst, if_neg hp] at h
      exact ⟨List.mem_cons_of_mem _ (ih h).1, (ih h).2⟩

/-- The batch of candidates drawn in a round. -/
def roundCands (P : Params) (rng : ℕ) : List (List ℚ) :=
  (List.range P.batchSize).map (fun i => P.draw (rng + i))

/-- Master case analysis of one engine round: either the state is terminal and
unchanged, or the round fails and only the status changes, or the worst live
point is replaced by an accepted freshly-evaluated candidate and the round's
bookkeeping advances. -/
theorem step_cases (P : Params) (σ : Sched) (s : EngineState) :
    step P σ s = s ∨
    (∃ e, step P σ s = { s with status := Status.failed e }) ∨
    (∃ w new live' i,
      s.status = Status.running ∧
      s.live.head? = some w ∧
      i < P.batchSize ∧
      new = mkPoint P (s.nextId + i) (P.draw (s.rng + i)) ∧
      keyOf w < keyOf new ∧
      replacePop s.live w new = some live' ∧
      step P σ s = { live := live'
                     dead := s.dead ++ [w]
                     trace := s.trace ++ [(s.live.length, keyOf w)]
                     rng := s.rng + P.batchSize
                     nextId := s.nextId + P.batchSize
                     iter := s.iter + 1
                     status := if P.maxIter ≤ s.iter + 1 then Status.converged
                               else Status.running }) := by
  rcases hst : s.status with _ | _ | e
  case converged => left; simp [step, hst]
  case failed => left; simp [step, hst]
  case running =>
  rcases hh : s.live.head? with _ | w
  · exact Or.inr (Or.inl ⟨.emptyPopulation, by simp [step, hst, hh]⟩)
  · by_cases hdeg : degenerate s.live
    · exact Or.inr (Or.inl ⟨.regionDegeneracy, by simp [step, hst, hh, hdeg]⟩)
    · rcases hdisp : dispatchRetry P (σ s.iter 0) (σ s.iter 1) s.nextId
          (2 * s.iter) (roundCands P s.rng) with _ | pts
      · refine Or.inr (Or.inl ⟨.dispatcherFatal, ?_⟩)
        simp [step, hst, hh, hdeg, roundCands] at hdisp ⊢
        simp [hdisp]
      · rcases hpick : pickFirst (keyOf w) pts with _ | new
        · refine Or.inr (Or.inl ⟨.regionDegeneracy, ?_⟩)
          simp [step, hst, hh, hdeg, roundCands] at hdisp ⊢
          simp [hdisp, hpick]
        · rcases hrep : replacePop s.live w new with _ | live'
          · refine Or.inr (Or.inl ⟨.contractViolation, ?_⟩)
            simp [step, hst, hh, hdeg, roundCands] at hdisp ⊢
            simp [hdisp, hpick, hrep]
          · refine Or.inr (Or.inr ?_)
            obtain ⟨hmem, hgt⟩ := pickFirst_mem hpick
            obtain ⟨i, c, hik, hc, hpt⟩ := dispatchRetry_mem hdisp new hmem
            have hlen : (roundCands P s.rng).length = P.batchSize := by
              simp [roundCands]
            rw [hlen] at hik
            have hci : c = P.draw (s.rng + i) := by
              have := hc
              rw [roundCands, List.get?_map, List.get?_range hik] at this
              simpa using this.symm
            subst hci
            refine ⟨w, new, live', i, rfl, rfl, hik, hpt, hgt, hrep, ?_⟩
            simp [step, hst, hh, hdeg, roundCands] at hdisp ⊢
            simp [hdisp, hpick, hrep]

/-! ## Engine invariants -/

/-- Structural invariant of the engine state: no two points (live or dead)
share an id, every id is below the id allocator's next value, and the live
population is sorted by log-likelihood (spec §3). -/
def Inv (s : EngineState) : Prop :=
  (ids (s.live ++ s.dead)).Nodup ∧
  (∀ p ∈ s.live ++ s.dead, p.id < s.nextId) ∧
  SortedPop s.live

/-- Finiteness invariant: every recorded log-likelihood, live or dead, is
finite (spec §3: never NaN or undefined). -/
def FinPop (s : EngineState) : Prop :=
  ∀ p ∈ s.live ++ s.dead, p.logl.isFinite = true

theorem adaptLogL_isFinite (r : LogL) : (adaptLogL r).isFinite = true := by
  cases r <;> simp [adaptLogL, LogL.isFinite]

theorem adaptLogL_floor {r : LogL} (h : r.isFinite = false) :
    adaptLogL r = .finite floorLogL := by
  rw [adaptLogL, h]
  simp

theorem head?_mem {l : List Point} {w : Point} (h : l.head? = some w) :
    w ∈ l := by
  cases l with
  | nil => simp at h
  | cons x t =>
    have : x = w := by simpa using h
    subst this
    exact List.mem_cons_self _ _

theorem replacePop_eq {pop : List Point} {old new : Point}
    {pop' : List Point} (hmem : old ∈ pop)
    (h : replacePop pop old new = some pop') :
    pop' = insortPoint new (pop.erase old) := by
  unfold replacePop at h
  rw [if_pos hmem] at h
  exact (Option.some.inj h).symm

/-- One round preserves the structural invariant. -/
theorem Inv_step {P : Params} {σ : Sched} {s : EngineState} (h : Inv s) :
    Inv (step P σ s) := by
  rcases step_cases P σ s with heq | ⟨e, heq⟩ |
    ⟨w, new, live', i, hst, hh, hik, hnew, hgt, hrep, heq⟩
  · rw [heq]; exact h
  · rw [heq]; exact h
  · rw [heq]
    obtain ⟨hnod, hlt, hsort⟩ := h
    have hwmem : w ∈ s.live := head?_mem hh
    have hE : live' = insortPoint new (s.live.erase w) := replacePop_eq hwmem hrep
    have hlive : List.Perm s.live (w :: s.live.erase w) := List.perm_cons_erase hwmem
    have hlive' : List.Perm live' (new :: s.live.erase w) := by
      rw [hE]; exact insortPoint_perm _ _
    have hperm : List.Perm (live' ++ (s.dead ++ [w]))
        (new :: (s.live ++ s.dead)) := by
      refine (hlive'.append_right _).trans ?_
      have h2 : List.Perm (s.live.erase w ++ (s.dead ++ [w]))
          (s.live ++ s.dead) :=
        ((List.perm_append_comm).append_left _).trans
          (List.perm_middle.trans ((hlive.append_right s.dead).symm))
      exact h2.cons new
    have hid : new.id = s.nextId + i := by rw [hnew]; rfl
    refine ⟨?_, ?_, ?_⟩
    · show (ids (live' ++ (s.dead ++ [w]))).Nodup
      have hpm := hperm.map Point.id
      rw [ids] at hnod ⊢
      refine hpm.nodup_iff.2 ?_
      rw [List.map_cons]
      refine List.nodup_cons.2 ⟨?_, hnod⟩
      intro hmem
      rcases List.mem_map.1 hmem with ⟨q, hq, hqid⟩
      have := hlt q hq
      rw [hqid, hid] at this
      omega
    · intro p hp
      show p.id < s.nextId + P.batchSize
      rcases List.mem_append.1 hp with hp | hp
      · rcases List.mem_cons.1 ((hlive'.mem_iff).1 hp) with rfl | hp
        · rw [hid]; omega
        · have := hlt p (List.mem_append.2 (Or.inl (List.mem_of_mem_erase hp)))
          omega
      · rcases List.mem_append.1 hp with hp | hp
        · have := hlt p (List.mem_append.2 (Or.inr hp))
          omega
        · have hpw : p = w := by simpa using hp
          subst hpw
          have := hlt p (List.mem_append.2 (Or.inl hwmem))
          omega
    · show SortedPop live'
      rw [hE]
      exact insortPoint_sorted (hsort.sublist (s.live.erase_sublist w))

/-- One round preserves finiteness of every recorded log-likelihood. -/
theorem FinPop_step {P : Params} {σ : Sched} {s : EngineState} (h : FinPop s) :
    FinPop (step P σ s) := by
  rcases step_cases P σ s with heq | ⟨e, heq⟩ |
    ⟨w, new, live', i, hst, hh, hik, hnew, hgt, hrep, heq⟩
  · rw [heq]; exact h
  · rw [heq]; exact h
  · rw [heq]
    have hwmem : w ∈ s.live := head?_mem hh
    have hE : live' = insortPoint new (s.live.erase w) :=
      replacePop_eq hwmem hrep
    intro p hp
    rcases List.mem_append.1 hp with hp | hp
    · rw [hE] at hp
      rcases mem_insortPoint.1 hp with rfl | hp
      · rw [hnew]
        exact adaptLogL_isFinite _
      · exact h p (List.mem_append.2 (Or.inl (List.mem_of_mem_erase hp)))
    · rcases List.mem_append.1 hp with hp | hp
      · exact h p (List.mem_append.2 (Or.inr hp))
      · have hpw : p = w := by simpa using hp
        subst hpw
        exact h p (List.mem_append.2 (Or.inl hwmem))

theorem foldl_insort_perm (f : ℕ → Point) (l : List ℕ) :
    ∀ acc, List.Perm (l.foldl (fun acc i => insortPoint (f i) acc) acc)
      (l.map f ++ acc) := by
  induction l with
  | nil => intro acc; simp
  | cons x t ih =>
    intro acc
    simp only [List.foldl_cons, List.map_cons]
    refine (ih (insortPoint (f x) acc)).trans ?_
    refine ((insortPoint_perm (f x) acc).append_left (t.map f)).trans ?_
    exact List.perm_middle

theorem foldl_insort_sorted (f : ℕ → Point) (l : List ℕ) :
    ∀ acc, SortedPop acc →
      SortedPop (l.foldl (fun acc i => insortPoint (f i) acc) acc) := by
  induction l with
  | nil => intro acc h; simpa using h
  | cons x t ih =>
    intro acc h
    simp only [List.foldl_cons]
    exact ih _ (insortPoint_sorted h)

theorem initState_live_perm (P : Params) :
    List.Perm (initState P).live
      ((List.range P.numLive).map (fun i => mkPoint P i (P.draw i))) := by
  show List.Perm ((List.range P.numLive).foldl
      (fun acc i => insortPoint (mkPoint P i (P.draw i)) acc) []) _
  exact (foldl_insort_perm _ _ []).trans (by simp)

/-- The initial state satisfies the structural invariant. -/
theorem initState_inv (P : Params) : Inv (initState P) := by
  have hperm := initState_live_perm P
  refine ⟨?_, ?_, ?_⟩
  · show (ids ((initState P).live ++ [])).Nodup
    rw [List.append_nil, ids]
    refine (hperm.map Point.id).nodup_iff.2 ?_
    rw [List.map_map]
    have h2 : (Point.id ∘ fun i => mkPoint P i (P.draw i)) = fun i : ℕ => i := by
      funext i; rfl
    rw [h2]
    simpa using List.nodup_range P.numLive
  · intro p hp
    have hd : (initState P).dead = [] := rfl
    rw [hd, List.append_nil] at hp
    rcases List.mem_map.1 (hperm.mem_iff.1 hp) with ⟨i, hi, rfl⟩
    show (mkPoint P i (P.draw i)).id < P.numLive
    simpa [mkPoint] using List.mem_range.1 hi
  · show SortedPop ((List.range P.numLive).foldl
      (fun acc i => insortPoint (mkPoint P i (P.draw i)) acc) [])
    exact foldl_insort_sorted _ _ [] (by simp [SortedPop])

/-- The initial state has only finite log-likelihoods. -/
theorem initState_fin (P : Params) : FinPop (initState P) := by
  intro p hp
  have hd : (initState P).dead = [] := rfl
  rw [hd, List.append_nil] at hp
  rcases List.mem_map.1 ((initState_live_perm P).mem_iff.1 hp) with ⟨i, hi, rfl⟩
  exact adaptLogL_isFinite _

theorem Inv_run (P : Params) (σ : Sched) :
    ∀ (n : ℕ) (s : EngineState), Inv s → Inv (run P σ n s) := by
  intro n
  induction n with
  | zero => intro s h; exact h
  | succ m ih => intro s h; exact ih _ (Inv_step h)

theorem FinPop_run (P : Params) (σ : Sched) :
    ∀ (n : ℕ) (s : EngineState), FinPop s → FinPop (run P σ n s) := by
  intro n
  induction n with
  | zero => intro s h; exact h
  | succ m ih => intro s h; exact ih _ (FinPop_step h)

theorem step_dead_extend (P : Params) (σ : Sched) (s : EngineState) :
    ∃ l, (step P σ s).dead = s.dead ++ l := by
  rcases step_cases P σ s with heq | ⟨e, heq⟩ |
    ⟨w, _, _, _, _, _, _, _, _, _, heq⟩
  · exact ⟨[], by rw [heq]; simp⟩
  · exact ⟨[], by rw [heq]; simp⟩
  · exact ⟨[w], by rw [heq]⟩

theorem run_dead_extend (P : Params) (σ : Sched) :
    ∀ (n : ℕ) (s : EngineState), ∃ l, (run P σ n s).dead = s.dead ++ l := by
  intro n
  induction n with
  | zero => intro s; exact ⟨[], by simp [run]⟩
  | succ m ih =>
    intro s
    obtain ⟨l1, h1⟩ := step_dead_extend P σ s
    obtain ⟨l2, h2⟩ := ih (step P σ s)
    exact ⟨l1 ++ l2, by rw [run, h2, h1, List.append_assoc]⟩

/-! ## Evidence accumulator (spec §4.5) -/

/-- Modelled from the spec (§3, §4.5): the evidence accumulator's state:
running log-evidence (`none` before the first removal, i.e. `logZ = -inf`),
current log prior volume, and iteration count. -/
structure EvAcc where
  logZ : Option ℝ
  logX : ℝ
  niter : ℕ

/-- Numerically stable pairwise log-sum-exp: the exponential is only ever
taken of a non-positive number. -/
noncomputable def logaddexp (a b : ℝ) : ℝ :=
  max a b + Real.log (1 + Real.exp (min a b - max a b))

/-- The trapezoidal weight of a removal: `log w = log X_prev - log X + logl`
with `log X = log X_prev - 1/N` (spec §4.5). -/
noncomputable def logwOf (logX : ℝ) (N : ℕ) (logl : ℝ) : ℝ :=
  logX - (logX - 1 / N) + logl

/-- Modelled from the spec (§4.5): the accumulator update at one removal.
`N` is the live-population size read at this removal. -/
noncomputable def evStep (a : EvAcc) (N : ℕ) (logl : ℝ) : EvAcc :=
  { logZ := some (match a.logZ with
      | none => logwOf a.logX N logl
      | some z => logaddexp z (logwOf a.logX N logl))
    logX := a.logX - 1 / N
    niter := a.niter + 1 }

/-- Initial accumulator: `X_0 = 1`, no evidence yet. -/
def evInit : EvAcc := { logZ := none, logX := 0, niter := 0 }

/-- Replay the accumulator over a removal trace. -/
noncomputable def evRun (tr : List (ℕ × ℝ)) : EvAcc :=
  tr.foldl (fun a nl => evStep a nl.1 nl.2) evInit

/-- The per-removal log-weights along a trace, starting from volume `logX`. -/
noncomputable def weightsFrom (logX : ℝ) : List (ℕ × ℝ) → List ℝ
  | [] => []
  | (N, l) :: t => logwOf logX N l :: weightsFrom (logX - 1 / N) t

/-- The per-removal log-weights of a whole trace. -/
noncomputable def weights (tr : List (ℕ × ℝ)) : List ℝ := weightsFrom 0 tr

/-- The evidence accumulator replayed from an engine state's removal trace. -/
noncomputable def evidenceOf (s : EngineState) : EvAcc :=
  evRun (s.trace.map (fun nl => (nl.1, (nl.2 : ℝ))))

/-- The result object of a run: the dead point sequence (the posterior sample
source), the accumulated log-evidence, and the iteration count (spec §6). -/
noncomputable def resultOf (s : EngineState) : List Point × Option ℝ × ℕ :=
  (s.dead, (evidenceOf s).logZ, s.iter)

/-- The stable pairwise update computes exactly `log (exp a + exp b)`. -/
theorem logaddexp_eq (a b : ℝ) :
    logaddexp a b = Real.log (Real.exp a + Real.exp b) := by
  rcases le_total a b with h | h
  · have h1 : Real.exp a + Real.exp b = Real.exp b * (1 + Real.exp (a - b)) := by
      rw [mul_add, mul_one, ← Real.exp_add]
      have h2 : b + (a - b) = a := by ring
      rw [h2, add_comm]
    have hpos : (0 : ℝ) < 1 + Real.exp (a - b) := by positivity
    rw [logaddexp, max_eq_right h, min_eq_left h, h1,
      Real.log_mul (Real.exp_ne_zero b) hpos.ne', Real.log_exp]
  · have h1 : Real.exp a + Real.exp b = Real.exp a * (1 + Real.exp (b - a)) := by
      rw [mul_add, mul_one, ← Real.exp_add]
      have h2 : a + (b - a) = b := by ring
      rw [h2]
    have hpos : (0 : ℝ) < 1 + Real.exp (b - a) := by positivity
    rw [logaddexp, max_eq_left h, min_eq_right h, h1,
      Real.log_mul (Real.exp_ne_zero a) hpos.ne', Real.log_exp]

theorem evFold_logZ (tr : List (ℕ × ℝ)) :
    ∀ (a : EvAcc) (z : ℝ), a.logZ = some z →
      (tr.foldl (fun a nl => evStep a nl.1 nl.2) a).logZ =
        some (Real.log (Real.exp z +
          ((weightsFrom a.logX tr).map Real.exp).sum)) := by
  induction tr with
  | nil =>
    intro a z hz
    simp [weightsFrom, hz, Real.log_exp]
  | cons nl t ih =>
    rcases nl with ⟨N, l⟩
    intro a z hz
    simp only [List.foldl_cons]
    have hstep : (evStep a N l).logZ =
        some (logaddexp z (logwOf a.logX N l)) := by
      simp [evStep, hz]
    rw [ih _ _ hstep]
    have hX : (evStep a N l).logX = a.logX - 1 / N := rfl
    rw [hX]
    congr 1
    rw [logaddexp_eq, Real.exp_log (by positivity)]
    simp [weightsFrom]
    rw [add_assoc]

/-- The accumulated log-evidence after a nonempty trace is the log of the sum
of the exponentials of all removal weights: log-sum-exp accumulation. -/
theorem evRun_logZ {tr : List (ℕ × ℝ)} (h : tr ≠ []) :
    (evRun tr).logZ = some (Real.log (((weights tr).map Real.exp).sum)) := by
  cases tr with
  | nil => cases h rfl
  | cons nl t =>
    rcases nl with ⟨N, l⟩
    unfold evRun
    simp only [List.foldl_cons]
    have h0 : (evStep evInit N l).logZ = some (logwOf 0 N l) := by
      simp [evStep, evInit]
    rw [evFold_logZ t _ _ h0]
    have hX : (evStep evInit N l).logX = 0 - 1 / N := rfl
    rw [hX]
    congr 1

/-- The removal trace is extended, when a removal happens, by precisely the
live-population size read at the time of that removal. -/
theorem step_trace (P : Params) (σ : Sched) (s : EngineState) :
    (step P σ s).trace = s.trace ∨
    ∃ w, s.live.head? = some w ∧
      (step P σ s).trace = s.trace ++ [(s.live.length, keyOf w)] := by
  rcases step_cases P σ s with heq | ⟨e, heq⟩ |
    ⟨w, _, _, _, _, hh, _, _, _, _, heq⟩
  · left; rw [heq]
  · left; rw [heq]
  · right; exact ⟨w, hh, by rw [heq]⟩

/-! ## Checkpoint store (spec §4.8) -/

/-- Serialize a rational as numerator and denominator tokens. -/
def encRat (q : ℚ) : List ℤ := [q.num, (q.den : ℤ)]

/-- Parse a rational from the token stream. -/
def decRat : List ℤ → Option (ℚ × List ℤ)
  | n :: d :: t => some ((n : ℚ) / ((d.toNat : ℚ)), t)
  | _ => none

theorem decRat_enc (q : ℚ) (r : List ℤ) :
    decRat (encRat q ++ r) = some (q, r) := by
  show decRat (q.num :: (q.den : ℤ) :: r) = some (q, r)
  rw [decRat]
  congr 2
  rw [Int.toNat_natCast]
  exact_mod_cast Rat.num_div_den q

/-- Serialize a raw log-likelihood value with a tag token. -/
def encLogL : LogL → List ℤ
  | .finite q => 0 :: encRat q
  | .nan => [1]
  | .posInf => [2]
  | .negInf => [3]

/-- Parse a raw log-likelihood value. -/
def decLogL : List ℤ → Option (LogL × List ℤ)
  | 0 :: t => (decRat t).map (fun qt => (.finite qt.1, qt.2))
  | 1 :: t => some (.nan, t)
  | 2 :: t => some (.posInf, t)
  | 3 :: t => some (.negInf, t)
  | _ => none

theorem decLogL_enc (v : LogL) (r : List ℤ) :
    decLogL (encLogL v ++ r) = some (v, r) := by
  cases v with
  | finite q =>
    show decLogL (0 :: (encRat q ++ r)) = _
    rw [decLogL, decRat_enc]
    rfl
  | nan => rfl
  | posInf => rfl
  | negInf => rfl

/-- Serialize a list, length-prefixed. -/
def encListG {α : Type} (enc : α → List ℤ) (l : List α) : List ℤ :=
  (l.length : ℤ) :: (l.map enc).join

/-- Parse a fixed number of items. -/
def decListN {α : Type} (dec : List ℤ → Option (α × List ℤ)) :
    ℕ → List ℤ → Option (List α × List ℤ)
  | 0, t => some ([], t)
  | n + 1, t =>
    match dec t with
    | none => none
    | some (a, t') =>
      match decListN dec n t' with
      | none => none
      | some (l, t'') => some (a :: l, t'')

/-- Parse a length-prefixed list. -/
def decListG {α : Type} (dec : List ℤ → Option (α × List ℤ)) :
    List ℤ → Option (List α × List ℤ)
  | [] => none
  | n :: t => if n < 0 then none else decListN dec n.toNat t

theorem decListN_enc {α : Type} {enc : α → List ℤ}
    {dec : List ℤ → Option (α × List ℤ)}
    (hdec : ∀ a r, dec (enc a ++ r) = some (a, r)) :
    ∀ (l : List α) (r : List ℤ),
      decListN dec l.length ((l.map enc).join ++ r) = some (l, r) := by
  intro l
  induction l with
  | nil => intro r; simp [decListN]
  | cons a t ih =>
    intro r
    show decListN dec (t.length + 1) ((enc a ++ (t.map enc).join) ++ r) = _
    rw [decListN, List.append_assoc]
    simp only [hdec, ih]

theorem decListG_enc {α : Type} {enc : α → List ℤ}
    {dec : List ℤ → Option (α × List ℤ)}
    (hdec : ∀ a r, dec (enc a ++ r) = some (a, r)) (l : List α) (r : List ℤ) :
    decListG dec (encListG enc l ++ r) = some (l, r) := by
  show decListG dec ((l.length : ℤ) :: ((l.map enc).join ++ r)) = _
  rw [decListG]
  rw [if_neg (by omega)]
  rw [Int.toNat_natCast]
  exact decListN_enc hdec l r

/-- Serialize a point. -/
def encPoint (p : Point) : List ℤ :=
  (p.id : ℤ) :: (encListG encRat p.u ++ (encListG encRat p.theta ++
    encLogL p.logl))

/-- Parse a point. -/
def decPoint : List ℤ → Option (Point × List ℤ)
  | [] => none
  | i :: t =>
    if i < 0 then none
    else
      match decListG decRat t with
      | none => none
      | some (u, t1) =>
        match decListG decRat t1 with
        | none => none
        | some (th, t2) =>
          match decLogL t2 with
          | none => none
          | some (ll, t3) =>
            some ({ id := i.toNat, u := u, theta := th, logl := ll }, t3)

theorem decPoint_enc (p : Point) (r : List ℤ) :
    decPoint (encPoint p ++ r) = some (p, r) := by
  show decPoint ((p.id : ℤ) :: ((encListG encRat p.u ++ (encListG encRat
    p.theta ++ encLogL p.logl)) ++ r)) = _
  rw [decPoint]
  rw [if_neg (by omega)]
  rw [List.append_assoc]
  simp only [decListG_enc decRat_enc, List.append_assoc, decLogL_enc,
    Int.toNat_natCast]

/-- Serialize one removal-trace entry. -/
def encNQ (nl : ℕ × ℚ) : List ℤ := (nl.1 : ℤ) :: encRat nl.2

/-- Parse one removal-trace entry. -/
def decNQ : List ℤ → Option ((ℕ × ℚ) × List ℤ)
  | [] => none
  | n :: t =>
    if n < 0 then none
    else (decRat t).map (fun qt => ((n.toNat, qt.1), qt.2))

theorem decNQ_enc (nl : ℕ × ℚ) (r : List ℤ) :
    decNQ (encNQ nl ++ r) = some (nl, r) := by
  show decNQ ((nl.1 : ℤ) :: (encRat nl.2 ++ r)) = _
  rw [decNQ]
  rw [if_neg (by omega), decRat_enc]
  simp [Int.toNat_natCast]

/-- Serialize the controller status. -/
def encStatus : Status → List ℤ
  | .running => [0]
  | .converged => [1]
  | .failed .regionDegeneracy => [2, 0]
  | .failed .dispatcherFatal => [2, 1]
  | .failed .contractViolation => [2, 2]
  | .failed .emptyPopulation => [2, 3]

/-- Parse the controller status. -/
def decStatus : List ℤ → Option (Status × List ℤ)
  | 0 :: t => some (.running, t)
  | 1 :: t => some (.converged, t)
  | 2 :: 0 :: t => some (.failed .regionDegeneracy, t)
  | 2 :: 1 :: t => some (.failed .dispatcherFatal, t)
  | 2 :: 2 :: t => some (.failed .contractViolation, t)
  | 2 :: 3 :: t => some (.failed .emptyPopulation, t)
  | _ => none

theorem decStatus_enc (st : Status) (r : List ℤ) :
    decStatus (encStatus st ++ r) = some (st, r) := by
  cases st with
  | running => rfl
  | converged => rfl
  | failed e => cases e <;> rfl

/-- Modelled from the spec (§4.8): `save` serializes the full checkpoint
snapshot (live population, dead point sequence, evidence state via the
removal trace, RNG position, id allocator, iteration, status) into a flat
durable token stream. -/
def saveCkpt (s : EngineState) : List ℤ :=
  encListG encPoint s.live ++ (encListG encPoint s.dead ++
    (encListG encNQ s.trace ++ ((s.rng : ℤ) :: (s.nextId : ℤ) ::
      (s.iter : ℤ) :: encStatus s.status)))

/-- Modelled from the spec (§4.8): `load` parses a checkpoint stream back
into an engine state, rejecting malformed or incomplete streams. -/
def loadCkpt (toks : List ℤ) : Option EngineState :=
  match decListG decPoint toks with
  | none => none
  | some (live, t1) =>
    match decListG decPoint t1 with
    | none => none
    | some (dead, t2) =>
      match decListG decNQ t2 with
      | none => none
      | some (trace, t3) =>
        match t3 with
        | rng :: nextId :: iter :: t4 =>
          if rng < 0 ∨ nextId < 0 ∨ iter < 0 then none
          else
            match decStatus t4 with
            | some (st, []) =>
              some { live := live, dead := dead, trace := trace
                     rng := rng.toNat, nextId := nextId.toNat
                     iter := iter.toNat, status := st }
            | _ => none
        | _ => none

/-- Save-then-load reproduces the engine state exactly. -/
theorem loadCkpt_saveCkpt (s : EngineState) :
    loadCkpt (saveCkpt s) = some s := by
  have hst : decStatus (encStatus s.status) = some (s.status, []) := by
    simpa using decStatus_enc s.status []
  simp only [saveCkpt, loadCkpt, decListG_enc decPoint_enc,
    decListG_enc decNQ_enc, hst, Int.toNat_natCast]
  rw [if_neg (by omega)]

/-! ## The tutorial's prior transform (docs/usage-spectral-line.ipynb) -/

open MeasureTheory ProbabilityTheory

/-- Standard normal cumulative distribution function, via the Gaussian
measure with mean 0 and variance 1. -/
noncomputable def normCdf : ℝ → ℝ :=
  fun x => ProbabilityTheory.cdf (gaussianReal 0 1) x

/-- Models the external library call `scipy.stats.norm.ppf(p, 0, 1)`: the
standard-normal quantile, an inverse of the standard normal CDF. -/
noncomputable def normPpf (p : ℝ) : ℝ := Function.invFun normCdf p

/-- Models `np.log10`. -/
noncomputable def np_log10 (x : ℝ) : ℝ := Real.logb 10 x

/-- The tutorial's `my_prior_transform`, embedded faithfully to its mutation
structure: `params = cube.copy()` starts as a copy of the input, each
assignment `params[i] = ...` is a `Function.update` of the copy, and `cube`
is never written.  The first component of the result is the returned
`params`; the second is the state of the caller's `cube` array after the
call. -/
noncomputable def my_prior_transform (cube : Fin 3 → ℝ) :
    (Fin 3 → ℝ) × (Fin 3 → ℝ) :=
  let params0 := cube
  let params1 := Function.update params0 0 (cube 0 * (800 - 400) + 400)
  let params2 := Function.update params1 1
    ((10 : ℝ) ^ (cube 1 * (np_log10 100 - np_log10 0.1) + np_log10 0.1))
  let params3 := Function.update params2 2 ((10 : ℝ) ^ normPpf (cube 2))
  (params3, cube)

/-- The location component as a function of `cube[0]` alone. -/
noncomputable def locComp (c : ℝ) : ℝ := c * (800 - 400) + 400

/-- The amplitude component as a function of `cube[1]` alone. -/
noncomputable def ampComp (c : ℝ) : ℝ :=
  (10 : ℝ) ^ (c * (np_log10 100 - np_log10 0.1) + np_log10 0.1)

/-- The width component as a function of `cube[2]` alone. -/
noncomputable def widthComp (c : ℝ) : ℝ := (10 : ℝ) ^ normPpf c

theorem np_log10_100 : np_log10 100 = 2 := by
  have h : (100 : ℝ) = (10 : ℝ) ^ (2 : ℝ) := by
    rw [show (2 : ℝ) = ((2 : ℕ) : ℝ) by norm_num, Real.rpow_natCast]
    norm_num
  rw [np_log10, h, Real.logb_rpow (by norm_num) (by norm_num)]

theorem np_log10_tenth : np_log10 0.1 = -1 := by
  have h : (0.1 : ℝ) = (10 : ℝ) ^ (-1 : ℝ) := by
    rw [show (-1 : ℝ) = ((-1 : ℤ) : ℝ) by norm_num, Real.rpow_intCast]
    norm_num
  rw [np_log10, h, Real.logb_rpow (by norm_num) (by norm_num)]

theorem normCdf_monotone : Monotone normCdf :=
  ProbabilityTheory.monotone_cdf _

theorem normCdf_leftLim (x : ℝ) : Function.leftLim normCdf x = normCdf x := by
  have hsing := (ProbabilityTheory.cdf (gaussianReal 0 1)).measure_singleton x
  rw [ProbabilityTheory.measure_cdf] at hsing
  have hz : gaussianReal 0 1 {x} = 0 :=
    gaussianReal_absolutelyContinuous 0 one_ne_zero (measure_singleton x)
  rw [hz] at hsing
  have hle : normCdf x ≤ Function.leftLim normCdf x := by
    have := (ENNReal.ofReal_eq_zero.1 hsing.symm)
    have hsub : normCdf x - Function.leftLim normCdf x ≤ 0 := this
    linarith
  exact le_antisymm (normCdf_monotone.leftLim_le le_rfl) hle

theorem normCdf_continuous : Continuous normCdf := by
  refine continuous_iff_continuousAt.2 (fun x => ?_)
  refine normCdf_monotone.continuousAt_iff_leftLim_eq_rightLim.2 ?_
  rw [normCdf_leftLim]
  exact ((ProbabilityTheory.cdf (gaussianReal 0 1)).rightLim_eq x).symm

theorem normCdf_surj {p : ℝ} (hp : p ∈ Set.Ioo (0 : ℝ) 1) :
    ∃ x, normCdf x = p := by
  obtain ⟨hp0, hp1⟩ := hp
  obtain ⟨x₁, hx₁⟩ :=
    ((tendsto_cdf_atBot (gaussianReal 0 1)).eventually_lt_const hp0).exists
  obtain ⟨x₂, hx₂⟩ :=
    ((tendsto_cdf_atTop (gaussianReal 0 1)).eventually_const_lt hp1).exists
  have hx₁' : normCdf x₁ < p := hx₁
  have hx₂' : p < normCdf x₂ := hx₂
  have hx : x₁ ≤ x₂ := by
    by_contra hc
    push_neg at hc
    have := normCdf_monotone hc.le
    linarith
  obtain ⟨x, _, hxeq⟩ := intermediate_value_Icc hx
    (normCdf_continuous.continuousOn) ⟨hx₁'.le, hx₂'.le⟩
  exact ⟨x, hxeq⟩

theorem normCdf_normPpf {p : ℝ} (hp : p ∈ Set.Ioo (0 : ℝ) 1) :
    normCdf (normPpf p) = p :=
  Function.invFun_eq (normCdf_surj hp)

/-- The standard-normal quantile is strictly increasing on (0,1). -/
theorem normPpf_strictMonoOn : StrictMonoOn normPpf (Set.Ioo 0 1) := by
  intro p hp q hq hpq
  by_contra hle
  push_neg at hle
  have h := normCdf_monotone hle
  rw [normCdf_normPpf hq, normCdf_normPpf hp] at h
  linarith

theorem ampComp_eq (c : ℝ) : ampComp c = (10 : ℝ) ^ (3 * c - 1) := by
  rw [ampComp, np_log10_100, np_log10_tenth]
  congr 1
  ring

theorem locComp_strictMonoOn : StrictMonoOn locComp (Set.Ioo 0 1) := by
  intro a _ b _ h
  simp only [locComp]
  nlinarith

theorem ampComp_strictMonoOn : StrictMonoOn ampComp (Set.Ioo 0 1) := by
  intro a _ b _ h
  rw [ampComp_eq, ampComp_eq]
  exact (Real.rpow_lt_rpow_left_iff (by norm_num)).2 (by linarith)

theorem widthComp_strictMonoOn : StrictMonoOn widthComp (Set.Ioo 0 1) := by
  intro a ha b hb h
  rw [widthComp, widthComp]
  exact (Real.rpow_lt_rpow_left_iff (by norm_num)).2
    (normPpf_strictMonoOn ha hb h)

theorem locComp_range {c : ℝ} (hc : c ∈ Set.Ioo (0 : ℝ) 1) :
    locComp c ∈ Set.Ioo (400 : ℝ) 800 := by
  obtain ⟨h0, h1⟩ := hc
  constructor <;> (simp only [locComp]; nlinarith)

theorem ampComp_range {c : ℝ} (hc : c ∈ Set.Ioo (0 : ℝ) 1) :
    ampComp c ∈ Set.Ioo (0.1 : ℝ) 100 := by
  obtain ⟨h0, h1⟩ := hc
  have h01 : (0.1 : ℝ) = (10 : ℝ) ^ (-1 : ℝ) := by
    rw [show (-1 : ℝ) = ((-1 : ℤ) : ℝ) by norm_num, Real.rpow_intCast]
    norm_num
  have h100 : (100 : ℝ) = (10 : ℝ) ^ (2 : ℝ) := by
    rw [show (2 : ℝ) = ((2 : ℕ) : ℝ) by norm_num, Real.rpow_natCast]
    norm_num
  rw [ampComp_eq]
  constructor
  · rw [h01]
    exact (Real.rpow_lt_rpow_left_iff (by norm_num)).2 (by linarith)
  · rw [h100]
    exact (Real.rpow_lt_rpow_left_iff (by norm_num)).2 (by linarith)

/-! ## Schedule independence (spec §5 ordering guarantee) -/

/-- A schedule is valid when each round's completion order is a permutation
of the proposal indices: every evaluation completes exactly once. -/
def ValidSched (P : Params) (σ : Sched) : Prop :=
  ∀ r a, List.Perm (σ r a) (List.range P.batchSize)

theorem dispatchRetry_eq_seq {P : Params} {σa σb : List ℕ} {base att : ℕ}
    {cands : List (List ℚ)}
    (h1 : List.Perm σa (List.range cands.length))
    (h2 : List.Perm σb (List.range cands.length)) :
    dispatchRetry P σa σb base att cands =
      match seqEvalB P att base cands with
      | some pts => some pts
      | none => seqEvalB P (att + 1) base cands := by
  unfold dispatchRetry
  rw [evaluateBatch_perm h1, evaluateBatch_perm h2]

/-- One round of the engine is independent of the completion schedule:
accepted candidates are consumed in proposal order. -/
theorem step_sched_eq (P : Params) {σ σ' : Sched} (h : ValidSched P σ)
    (h' : ValidSched P σ') (s : EngineState) : step P σ s = step P σ' s := by
  have hlen : ((List.range P.batchSize).map
      (fun i => P.draw (s.rng + i))).length = P.batchSize := by simp
  have hd : dispatchRetry P (σ s.iter 0) (σ s.iter 1) s.nextId (2 * s.iter)
        ((List.range P.batchSize).map (fun i => P.draw (s.rng + i))) =
      dispatchRetry P (σ' s.iter 0) (σ' s.iter 1) s.nextId (2 * s.iter)
        ((List.range P.batchSize).map (fun i => P.draw (s.rng + i))) := by
    rw [dispatchRetry_eq_seq (by rw [hlen]; exact h s.iter 0)
        (by rw [hlen]; exact h s.iter 1),
      dispatchRetry_eq_seq (by rw [hlen]; exact h' s.iter 0)
        (by rw [hlen]; exact h' s.iter 1)]
  simp only [step]
  rw [hd]

theorem run_sched_eq (P : Params) {σ σ' : Sched} (h : ValidSched P σ)
    (h' : ValidSched P σ') : ∀ (n : ℕ) (s : EngineState),
    run P σ n s = run P σ' n s := by
  intro n
  induction n with
  | zero => intro s; rfl
  | succ m ih =>
    intro s
    show run P σ m (step P σ s) = run P σ' m (step P σ' s)
    rw [step_sched_eq P h h' s]
    exact ih _

/-! ## Concrete example instances used by the witnesses -/

/-- A small concrete parameter set: identity transform, likelihood reading
the first coordinate, deterministic draws, no evaluation failures. -/
def exP : Params :=
  { numLive := 2, batchSize := 2, maxIter := 2
    transform := fun c => c
    loglike := fun t => .finite (t.headD 0)
    draw := fun i => [(i : ℚ)]
    evalFail := fun _ _ => false }

/-- Identity completion schedule. -/
def exSched : Sched := fun _ _ => [0, 1]

/-- Reversed completion schedule. -/
def exSchedRev : Sched := fun _ _ => [1, 0]

/-- Same as `exP` but every evaluation attempt fails. -/
def exPFail : Params :=
  { numLive := 2, batchSize := 2, maxIter := 2
    transform := fun c => c
    loglike := fun t => .finite (t.headD 0)
    draw := fun i => [(i : ℚ)]
    evalFail := fun _ _ => true }

/-- Same as `exP` but with a constant draw stream: the region degenerates. -/
def exPConst : Params :=
  { numLive := 2, batchSize := 2, maxIter := 2
    transform := fun c => c
    loglike := fun t => .finite (t.headD 0)
    draw := fun _ => [0]
    evalFail := fun _ _ => false }

/-- Same as `exP` but with a decreasing likelihood: every candidate is
rejected and the rejection budget is exhausted. -/
def exPLow : Params :=
  { numLive := 2, batchSize := 2, maxIter := 2
    transform := fun c => c
    loglike := fun t => .finite (-(t.headD 0))
    draw := fun i => [(i : ℚ)]
    evalFail := fun _ _ => false }

/-- The batch obtained from `exP`'s first round of candidates. -/
def exBatch : List Point :=
  [mkPoint exP 2 ([2] : List ℚ), mkPoint exP 3 ([3] : List ℚ)]

/-! ## Claim theorems -/

/-- C1: at each replacement of the worst live point, the evidence
accumulator's update satisfies exactly `log X_i = log X_{i-1} - 1/N` where
`N` is the live-population size read at the time of that removal (the trace
entry is written with the live size of the state being stepped, not a fixed
constant), `log w_i = log X_{i-1} - log X_i + logl` of the removed point,
and `logZ` is accumulated from the `w_i` by numerically stable log-sum-exp
(the stable pairwise update equals `log (exp a + exp b)`, and the replayed
`logZ` equals the log of the sum of the exponentials of all weights). -/
theorem claim_C1_evidence_update :
    (∀ (a : EvAcc) (N : ℕ) (l : ℝ), (evStep a N l).logX = a.logX - 1 / N) ∧
    (∀ (a : EvAcc) (N : ℕ) (l : ℝ),
      logwOf a.logX N l = a.logX - (evStep a N l).logX + l) ∧
    (∀ (a : EvAcc) (N : ℕ) (l : ℝ), a.logZ = none →
      (evStep a N l).logZ = some (logwOf a.logX N l)) ∧
    (∀ (a : EvAcc) (N : ℕ) (l : ℝ) (z : ℝ), a.logZ = some z →
      (evStep a N l).logZ = some (logaddexp z (logwOf a.logX N l))) ∧
    (∀ a b : ℝ, logaddexp a b = Real.log (Real.exp a + Real.exp b)) ∧
    (∀ tr : List (ℕ × ℝ), tr ≠ [] →
      (evRun tr).logZ = some (Real.log (((weights tr).map Real.exp).sum))) ∧
    (∀ (P : Params) (σ : Sched) (s : EngineState),
      (step P σ s).trace = s.trace ∨
      ∃ w, s.live.head? = some w ∧
        (step P σ s).trace = s.trace ++ [(s.live.length, keyOf w)]) := by
  refine ⟨fun a N l => rfl, fun a N l => rfl, ?_, ?_, logaddexp_eq,
    fun tr h => evRun_logZ h, step_trace⟩
  · intro a N l h
    simp [evStep, h]
  · intro a N l z h
    simp [evStep, h]

/-- Witness for C1 at concrete accumulator states and a concrete trace. -/
theorem claim_C1_witness :
    ((⟨none, 0, 0⟩ : EvAcc).logZ = none ∧
      (evStep ⟨none, 0, 0⟩ 2 1).logZ = some (logwOf (0 : ℝ) 2 1)) ∧
    ((⟨some 0, 0, 0⟩ : EvAcc).logZ = some 0 ∧
      (evStep ⟨some 0, 0, 0⟩ 2 1).logZ =
        some (logaddexp 0 (logwOf (0 : ℝ) 2 1))) ∧
    (([((2 : ℕ), (1 : ℝ))] : List (ℕ × ℝ)) ≠ [] ∧
      (evRun [((2 : ℕ), (1 : ℝ))]).logZ =
        some (Real.log
          (((weights [((2 : ℕ), (1 : ℝ))]).map Real.exp).sum))) := by
  refine ⟨⟨rfl, ?_⟩, ⟨rfl, ?_⟩, ⟨by simp, ?_⟩⟩
  · exact claim_C1_evidence_update.2.2.1 ⟨none, 0, 0⟩ 2 1 rfl
  · exact claim_C1_evidence_update.2.2.2.1 ⟨some 0, 0, 0⟩ 2 1 0 rfl
  · exact claim_C1_evidence_update.2.2.2.2.2.1 _ (by simp)

/-- C2: the adapter substitutes the fixed very-negative floor constant for
every non-finite raw likelihood (so its output is always finite), one engine
round preserves finiteness of all recorded log-likelihoods, and on every run
from the initial state every entry of the dead point sequence has a finite
recorded logl. -/
theorem claim_C2_nonfinite_floor :
    (∀ r : LogL, (adaptLogL r).isFinite = true) ∧
    (∀ r : LogL, r.isFinite = false → adaptLogL r = LogL.finite floorLogL) ∧
    (∀ (P : Params) (σ : Sched) (s : EngineState),
      FinPop s → FinPop (step P σ s)) ∧
    (∀ (P : Params) (σ : Sched) (n : ℕ),
      ∀ p ∈ (run P σ n (initState P)).dead, p.logl.isFinite = true) := by
  refine ⟨adaptLogL_isFinite, fun r h => adaptLogL_floor h,
    fun P σ s h => FinPop_step h, ?_⟩
  intro P σ n p hp
  exact FinPop_run P σ n _ (initState_fin P) p (List.mem_append.2 (Or.inr hp))

/-- Witness for C2: the NaN raw value is floored, and a concrete one-round
run records only finite dead-point likelihoods. -/
theorem claim_C2_witness :
    (LogL.nan.isFinite = false ∧
      adaptLogL LogL.nan = LogL.finite floorLogL) ∧
    (FinPop (initState exP) ∧ FinPop (step exP exSched (initState exP))) ∧
    ((mkPoint exP 0 ([0] : List ℚ)) ∈
        (run exP exSched 1 (initState exP)).dead ∧
      (mkPoint exP 0 ([0] : List ℚ)).logl.isFinite = true) := by
  have hfin : FinPop (initState exP) := by
    unfold FinPop
    decide
  refine ⟨⟨rfl, claim_C2_nonfinite_floor.2.1 LogL.nan rfl⟩,
    ⟨hfin, claim_C2_nonfinite_floor.2.2.1 exP exSched _ hfin⟩, ⟨?_, ?_⟩⟩
  · decide
  · exact claim_C2_nonfinite_floor.2.2.2 exP exSched 1 _ (by decide)

/-- C3: with a fixed seed (the draw stream) and any two valid completion
schedules (each round's completion order a permutation of the proposal
indices), the engine produces identical dead point sequences and the same
result object (hence the same logZ): accepted candidates are consumed in
proposal order, not completion order. -/
theorem claim_C3_determinism (P : Params) (σ₁ σ₂ : Sched) (n : ℕ)
    (s : EngineState) (h₁ : ValidSched P σ₁) (h₂ : ValidSched P σ₂) :
    (run P σ₁ n s).dead = (run P σ₂ n s).dead ∧
    resultOf (run P σ₁ n s) = resultOf (run P σ₂ n s) := by
  rw [run_sched_eq P h₁ h₂ n s]
  exact ⟨rfl, rfl⟩

/-- Witness for C3: the identity and the reversed completion schedules give
the same dead sequence and result on a concrete run. -/
theorem claim_C3_witness :
    ValidSched exP exSched ∧ ValidSched exP exSchedRev ∧
    (run exP exSched 1 (initState exP)).dead =
      (run exP exSchedRev 1 (initState exP)).dead ∧
    resultOf (run exP exSched 1 (initState exP)) =
      resultOf (run exP exSchedRev 1 (initState exP)) := by
  have h₁ : ValidSched exP exSched := by
    intro r a
    show List.Perm ([0, 1] : List ℕ) (List.range exP.batchSize)
    decide
  have h₂ : ValidSched exP exSchedRev := by
    intro r a
    show List.Perm ([1, 0] : List ℕ) (List.range exP.batchSize)
    decide
  have h := claim_C3_determinism exP exSched exSchedRev 1 (initState exP) h₁ h₂
  exact ⟨h₁, h₂, h.1, h.2⟩

/-- C4: save-then-load reproduces the engine state (hence the Evidence
State) exactly, and resuming from the loaded checkpoint and running zero
further rounds yields the same result object as the original state. -/
theorem claim_C4_checkpoint_roundtrip :
    ∀ (P : Params) (σ : Sched) (s : EngineState),
      loadCkpt (saveCkpt s) = some s ∧
      run P σ 0 s = s ∧
      ∃ s', loadCkpt (saveCkpt s) = some s' ∧
        resultOf (run P σ 0 s') = resultOf s :=
  fun P σ s => ⟨loadCkpt_saveCkpt s, rfl, ⟨s, loadCkpt_saveCkpt s, rfl⟩⟩

/-- C5: a successful batch returns one point per candidate (the whole batch
completes); a failed batch is retried exactly once with the same candidates;
a successful first attempt is not retried; and a twice-failed batch makes
the round fail with the engine state (live population and dead sequence)
otherwise unmodified, so a retry was safe. -/
theorem claim_C5_batch_atomicity :
    (∀ (P : Params) (att base : ℕ) (σ : List ℕ) (cands : List (List ℚ))
        (pts : List Point), evaluateBatch P att base σ cands = some pts →
        pts.length = cands.length) ∧
    (∀ (P : Params) (σa σb : List ℕ) (base att : ℕ)
        (cands : List (List ℚ)),
        evaluateBatch P att base σa cands = none →
        dispatchRetry P σa σb base att cands =
          evaluateBatch P (att + 1) base σb cands) ∧
    (∀ (P : Params) (σa σb : List ℕ) (base att : ℕ)
        (cands : List (List ℚ)) (pts : List Point),
        evaluateBatch P att base σa cands = some pts →
        dispatchRetry P σa σb base att cands = some pts) ∧
    (∀ (P : Params) (σ : Sched) (s : EngineState) (w : Point),
        s.status = Status.running → s.live.head? = some w →
        degenerate s.live = false →
        dispatchRetry P (σ s.iter 0) (σ s.iter 1) s.nextId (2 * s.iter)
          ((List.range P.batchSize).map (fun i => P.draw (s.rng + i))) =
            none →
        step P σ s =
          { s with status := Status.failed ErrKind.dispatcherFatal }) := by
  refine ⟨?_, ?_, ?_, ?_⟩
  · intro P att base σ cands pts h
    have := allSome_length h
    rw [this]
    simp [fanIn]
  · intro P σa σb base att cands h
    unfold dispatchRetry
    rw [h]
  · intro P σa σb base att cands pts h
    unfold dispatchRetry
    rw [h]
  · intro P σ s w hst hh hdeg hd
    simp [step, hst, hh, hdeg, hd]

/-- Witness for C5: a concrete successful batch has full length; a concrete
failing configuration is retried on a second attempt and, failing twice,
fails the round leaving the state otherwise unchanged. -/
theorem claim_C5_witness :
    (evaluateBatch exP 0 2 ([0, 1] : List ℕ) ([[2], [3]] : List (List ℚ)) =
        some exBatch ∧
      exBatch.length = ([[2], [3]] : List (List ℚ)).length) ∧
    (evaluateBatch exPFail 0 2 ([0, 1] : List ℕ)
        ([[2], [3]] : List (List ℚ)) = none ∧
      dispatchRetry exPFail ([0, 1] : List ℕ) ([1, 0] : List ℕ) 2 0
          ([[2], [3]] : List (List ℚ)) =
        evaluateBatch exPFail 1 2 ([1, 0] : List ℕ)
          ([[2], [3]] : List (List ℚ))) ∧
    ((initState exPFail).status = Status.running ∧
      (initState exPFail).live.head? =
        some (mkPoint exPFail 0 ([0] : List ℚ)) ∧
      degenerate (initState exPFail).live = false ∧
      dispatchRetry exPFail (exSched (initState exPFail).iter 0)
        (exSched (initState exPFail).iter 1) (initState exPFail).nextId
        (2 * (initState exPFail).iter)
        ((List.range exPFail.batchSize).map
          (fun i => exPFail.draw ((initState exPFail).rng + i))) = none ∧
      step exPFail exSched (initState exPFail) =
        { initState exPFail with
            status := Status.failed ErrKind.dispatcherFatal }) := by
  refine ⟨⟨by decide, ?_⟩, ⟨by decide, ?_⟩, ?_, ?_, ?_, ?_, ?_⟩
  · exact claim_C5_batch_atomicity.1 exP 0 2 ([0, 1] : List ℕ)
      ([[2], [3]] : List (List ℚ)) exBatch (by decide)
  · exact claim_C5_batch_atomicity.2.1 exPFail ([0, 1] : List ℕ)
      ([1, 0] : List ℕ) 2 0 ([[2], [3]] : List (List ℚ)) (by decide)
  · decide
  · decide
  · decide
  · decide
  · exact claim_C5_batch_atomicity.2.2.2 exPFail exSched (initState exPFail)
      (mkPoint exPFail 0 ([0] : List ℚ)) (by decide) (by decide) (by decide)
      (by decide)

/-- A concrete population member for the witnesses. -/
def ptA : Point := { id := 0, u := [0], theta := [0], logl := .finite 0 }

/-- A concrete population member for the witnesses. -/
def ptB : Point := { id := 1, u := [1], theta := [1], logl := .finite 1 }

/-- A concrete replacement point for the witnesses. -/
def ptC : Point := { id := 5, u := [2], theta := [2], logl := .finite 2 }

/-- The batch obtained from `exPLow`'s first round of candidates. -/
def exBatchLow : List Point :=
  [mkPoint exPLow 2 ([2] : List ℚ), mkPoint exPLow 3 ([3] : List ℚ)]

/-- C6: `replace(old, new)` on a well-formed live population with a current
member `old` and a fresh id succeeds, removes `old` and adds `new` (as a
multiset), and re-establishes the invariant (ids distinct, logl ascending);
replacing a non-member is the fatal contract violation `none`; and the only
way a round ever mutates the live population is through a successful
`replacePop` call. -/
theorem claim_C6_replace_contract :
    (∀ (pop : List Point) (old new : Point), SortedPop pop →
      (ids pop).Nodup → old ∈ pop → new.id ∉ ids pop →
      ∃ pop', replacePop pop old new = some pop' ∧
        List.Perm pop' (new :: pop.erase old) ∧ SortedPop pop' ∧
        (ids pop').Nodup) ∧
    (∀ (pop : List Point) (old new : Point), old ∉ pop →
      replacePop pop old new = none) ∧
    (∀ (P : Params) (σ : Sched) (s : EngineState),
      (step P σ s).live = s.live ∨
      ∃ old new, old ∈ s.live ∧
        replacePop s.live old new = some ((step P σ s).live)) := by
  refine ⟨?_, ?_, ?_⟩
  · intro pop old new hsort hnod hold hnew
    refine ⟨insortPoint new (pop.erase old), ?_, insortPoint_perm _ _,
      insortPoint_sorted (hsort.sublist (pop.erase_sublist old)), ?_⟩
    · unfold replacePop
      rw [if_pos hold]
    · refine ((insortPoint_perm new (pop.erase old)).map Point.id).nodup_iff.2
        ?_
      refine List.nodup_cons.2 ⟨?_, ?_⟩
      · intro hmem
        exact hnew (((pop.erase_sublist old).map Point.id).subset hmem)
      · exact hnod.sublist ((pop.erase_sublist old).map Point.id)
  · intro pop old new h
    unfold replacePop
    rw [if_neg h]
  · intro P σ s
    rcases step_cases P σ s with heq | ⟨e, heq⟩ |
      ⟨w, new, live', _, _, hh, _, _, _, hrep, heq⟩
    · left; rw [heq]
    · left; rw [heq]
    · right
      refine ⟨w, new, head?_mem hh, ?_⟩
      rw [heq]
      exact hrep

/-- Witness for C6 on a concrete sorted two-point population. -/
theorem claim_C6_witness :
    (SortedPop [ptA, ptB] ∧ (ids [ptA, ptB]).Nodup ∧ ptA ∈ [ptA, ptB] ∧
      ptC.id ∉ ids [ptA, ptB] ∧
      ∃ pop', replacePop [ptA, ptB] ptA ptC = some pop' ∧
        List.Perm pop' (ptC :: ([ptA, ptB].erase ptA)) ∧ SortedPop pop' ∧
        (ids pop').Nodup) ∧
    (ptC ∉ [ptA, ptB] ∧ replacePop [ptA, ptB] ptC ptA = none) := by
  refine ⟨⟨by decide, by decide, by decide, by decide, ?_⟩, ⟨by decide, ?_⟩⟩
  · exact claim_C6_replace_contract.1 [ptA, ptB] ptA ptC (by decide)
      (by decide) (by decide) (by decide)
  · exact claim_C6_replace_contract.2.1 [ptA, ptB] ptC ptA (by decide)

/-- C7: the proposer's candidate search terminates within its rejection
budget: exhaustion (`pickFirst = none`) happens exactly when every candidate
of the batch is rejected, the number of draws per round equals the budget
and the RNG stream advances by at most that budget, a degenerate region
makes the round fail terminally with a region-degeneracy error rather than
looping, and an exhausted budget likewise surfaces the region-degeneracy
failure signal. -/
theorem claim_C7_proposer_terminates :
    (∀ (lmin : ℚ) (l : List Point),
      pickFirst lmin l = none ↔ ∀ p ∈ l, keyOf p ≤ lmin) ∧
    (∀ (P : Params) (rng : ℕ), (roundCands P rng).length = P.batchSize) ∧
    (∀ (P : Params) (σ : Sched) (s : EngineState),
      (step P σ s).rng ≤ s.rng + P.batchSize) ∧
    (∀ (P : Params) (σ : Sched) (s : EngineState) (w : Point),
      s.status = Status.running → s.live.head? = some w →
      degenerate s.live = true →
      (step P σ s).status = Status.failed ErrKind.regionDegeneracy) ∧
    (∀ (P : Params) (σ : Sched) (s : EngineState) (w : Point)
        (pts : List Point),
      s.status = Status.running → s.live.head? = some w →
      degenerate s.live = false →
      dispatchRetry P (σ s.iter 0) (σ s.iter 1) s.nextId (2 * s.iter)
        ((List.range P.batchSize).map (fun i => P.draw (s.rng + i))) =
          some pts →
      pickFirst (keyOf w) pts = none →
      (step P σ s).status = Status.failed ErrKind.regionDegeneracy) := by
  refine ⟨fun lmin l => pickFirst_none_iff, ?_, ?_, ?_, ?_⟩
  · intro P rng
    simp [roundCands]
  · intro P σ s
    rcases step_cases P σ s with heq | ⟨e, heq⟩ |
      ⟨_, _, _, _, _, _, _, _, _, _, heq⟩
    · rw [heq]; exact Nat.le_add_right _ _
    · rw [heq]; exact Nat.le_add_right _ _
    · rw [heq]
  · intro P σ s w hst hh hdeg
    simp [step, hst, hh, hdeg]
  · intro P σ s w pts hst hh hdeg hd hpick
    simp [step, hst, hh, hdeg, hd, hpick]

/-- Witness for C7: a degenerate concrete state fails terminally, and a
concrete exhausted batch surfaces the region-degeneracy failure. -/
theorem claim_C7_witness :
    ((initState exPConst).status = Status.running ∧
      (initState exPConst).live.head? =
        some (mkPoint exPConst 1 ([0] : List ℚ)) ∧
      degenerate (initState exPConst).live = true ∧
      (step exPConst exSched (initState exPConst)).status =
        Status.failed ErrKind.regionDegeneracy) ∧
    ((initState exPLow).status = Status.running ∧
      (initState exPLow).live.head? =
        some (mkPoint exPLow 1 ([1] : List ℚ)) ∧
      degenerate (initState exPLow).live = false ∧
      dispatchRetry exPLow (exSched (initState exPLow).iter 0)
        (exSched (initState exPLow).iter 1) (initState exPLow).nextId
        (2 * (initState exPLow).iter)
        ((List.range exPLow.batchSize).map
          (fun i => exPLow.draw ((initState exPLow).rng + i))) =
        some exBatchLow ∧
      pickFirst (keyOf (mkPoint exPLow 1 ([1] : List ℚ))) exBatchLow =
        none ∧
      (step exPLow exSched (initState exPLow)).status =
        Status.failed ErrKind.regionDegeneracy) := by
  refine ⟨⟨by decide, by decide, by decide, ?_⟩,
    ⟨by decide, by decide, by decide, by decide, by decide, ?_⟩⟩
  · exact claim_C7_proposer_terminates.2.2.2.1 exPConst exSched
      (initState exPConst) (mkPoint exPConst 1 ([0] : List ℚ)) (by decide)
      (by decide) (by decide)
  · exact claim_C7_proposer_terminates.2.2.2.2 exPLow exSched
      (initState exPLow) (mkPoint exPLow 1 ([1] : List ℚ)) exBatchLow
      (by decide) (by decide) (by decide) (by decide) (by decide)

/-- C8: the dead point sequence is append-only (every run extends it on the
right, so entries are never modified and the count never decreases), one
round preserves the structural invariant (so no two points, live or dead,
ever share an id: no dead point is duplicated and none is resurrected), the
invariant holds along every run from the initial state, and a
checkpoint/resume cycle continues the same dead sequence. -/
theorem claim_C8_dead_append_only :
    (∀ (P : Params) (σ : Sched) (n : ℕ) (s : EngineState),
      ∃ l, (run P σ n s).dead = s.dead ++ l) ∧
    (∀ (P : Params) (σ : Sched) (n : ℕ) (s : EngineState),
      s.dead.length ≤ (run P σ n s).dead.length) ∧
    (∀ (P : Params) (σ : Sched) (s : EngineState),
      Inv s → Inv (step P σ s)) ∧
    (∀ (P : Params) (σ : Sched) (n : ℕ),
      (ids ((run P σ n (initState P)).live ++
        (run P σ n (initState P)).dead)).Nodup) ∧
    (∀ (P : Params) (σ : Sched) (k m : ℕ) (s s' : EngineState),
      loadCkpt (saveCkpt (run P σ k s)) = some s' →
      ∃ l, (run P σ m s').dead = (run P σ k s).dead ++ l) := by
  refine ⟨run_dead_extend, ?_, fun P σ s h => Inv_step h, ?_, ?_⟩
  · intro P σ n s
    obtain ⟨l, hl⟩ := run_dead_extend P σ n s
    rw [hl, List.length_append]
    exact Nat.le_add_right _ _
  · intro P σ n
    exact (Inv_run P σ n _ (initState_inv P)).1
  · intro P σ k m s s' h
    rw [loadCkpt_saveCkpt] at h
    have hs : s' = run P σ k s := (Option.some.inj h).symm
    subst hs
    exact run_dead_extend P σ m _

/-- Witness for C8: concrete invariant preservation and a concrete
save/load/resume cycle extending the dead sequence. -/
theorem claim_C8_witness :
    (Inv (initState exP) ∧ Inv (step exP exSched (initState exP))) ∧
    (loadCkpt (saveCkpt (run exP exSched 1 (initState exP))) =
        some (run exP exSched 1 (initState exP)) ∧
      ∃ l, (run exP exSched 1 (run exP exSched 1 (initState exP))).dead =
        (run exP exSched 1 (initState exP)).dead ++ l) := by
  have hinv : Inv (initState exP) := by
    unfold Inv
    refine ⟨by decide, by decide, by decide⟩
  refine ⟨⟨hinv, claim_C8_dead_append_only.2.2.1 exP exSched _ hinv⟩,
    ⟨loadCkpt_saveCkpt _, ?_⟩⟩
  · exact claim_C8_dead_append_only.2.2.2.2 exP exSched 1 1 (initState exP)
      (run exP exSched 1 (initState exP)) (by rw [loadCkpt_saveCkpt])

/-- C9: `my_prior_transform` has no side effect on its argument: for every
cube in the unit cube, the caller's array after the call equals the input
(the function works on `params = cube.copy()` and never writes `cube`). -/
theorem claim_C9_prior_transform_pure :
    ∀ cube : Fin 3 → ℝ, (∀ i, cube i ∈ Set.Icc (0 : ℝ) 1) →
      (my_prior_transform cube).2 = cube :=
  fun _ _ => rfl

/-- Witness for C9 at the centre of the unit cube. -/
theorem claim_C9_witness :
    (∀ i : Fin 3, ((fun _ => (1 / 2 : ℝ)) : Fin 3 → ℝ) i ∈
      Set.Icc (0 : ℝ) 1) ∧
    (my_prior_transform (fun _ => (1 / 2 : ℝ))).2 =
      (fun _ => (1 / 2 : ℝ)) := by
  have h : ∀ i : Fin 3, ((fun _ => (1 / 2 : ℝ)) : Fin 3 → ℝ) i ∈
      Set.Icc (0 : ℝ) 1 := by
    intro i
    constructor <;> norm_num
  exact ⟨h, claim_C9_prior_transform_pure _ h⟩

/-- C10: each output component of `my_prior_transform` depends only on the
matching input component (component 0 through the affine map into
(400, 800), component 1 through the log-uniform map into (0.1, 100),
component 2 through 10 to the power of the standard-normal quantile), and
each component map is strictly increasing on (0, 1). -/
theorem claim_C10_prior_transform_components :
    (∀ cube : Fin 3 → ℝ,
      (my_prior_transform cube).1 0 = locComp (cube 0) ∧
      (my_prior_transform cube).1 1 = ampComp (cube 1) ∧
      (my_prior_transform cube).1 2 = widthComp (cube 2)) ∧
    StrictMonoOn locComp (Set.Ioo 0 1) ∧
    StrictMonoOn ampComp (Set.Ioo 0 1) ∧
    StrictMonoOn widthComp (Set.Ioo 0 1) ∧
    (∀ c ∈ Set.Ioo (0 : ℝ) 1,
      locComp c ∈ Set.Ioo (400 : ℝ) 800 ∧
      ampComp c ∈ Set.Ioo (0.1 : ℝ) 100) := by
  refine ⟨?_, locComp_strictMonoOn, ampComp_strictMonoOn,
    widthComp_strictMonoOn, fun c hc => ⟨locComp_range hc, ampComp_range hc⟩⟩
  intro cube
  have hshape : (my_prior_transform cube).1 =
      Function.update (Function.update (Function.update cube 0
        (cube 0 * (800 - 400) + 400)) 1
        ((10 : ℝ) ^ (cube 1 * (np_log10 100 - np_log10 0.1) + np_log10 0.1)))
        2 ((10 : ℝ) ^ normPpf (cube 2)) := rfl
  rw [hshape]
  refine ⟨?_, ?_, ?_⟩
  · rw [Function.update_noteq (by decide), Function.update_noteq (by decide),
      Function.update_same]
    rfl
  · rw [Function.update_noteq (by decide), Function.update_same]
    rfl
  · rw [Function.update_same]
    rfl

/-- Witness for C10 at concrete interior points 1/4 < 1/2 of (0, 1). -/
theorem claim_C10_witness :
    ((1 / 4 : ℝ) ∈ Set.Ioo (0 : ℝ) 1 ∧ (1 / 2 : ℝ) ∈ Set.Ioo (0 : ℝ) 1 ∧
      (1 / 4 : ℝ) < 1 / 2) ∧
    ((my_prior_transform (fun _ => (1 / 2 : ℝ))).1 0 = locComp (1 / 2) ∧
      (my_prior_transform (fun _ => (1 / 2 : ℝ))).1 1 = ampComp (1 / 2) ∧
      (my_prior_transform (fun _ => (1 / 2 : ℝ))).1 2 = widthComp (1 / 2)) ∧
    (locComp (1 / 4) < locComp (1 / 2) ∧
      ampComp (1 / 4) < ampComp (1 / 2) ∧
      widthComp (1 / 4) < widthComp (1 / 2)) ∧
    (locComp (1 / 2) ∈ Set.Ioo (400 : ℝ) 800 ∧
      ampComp (1 / 2) ∈ Set.Ioo (0.1 : ℝ) 100) := by
  have h4 : (1 / 4 : ℝ) ∈ Set.Ioo (0 : ℝ) 1 := by constructor <;> norm_num
  have h2 : (1 / 2 : ℝ) ∈ Set.Ioo (0 : ℝ) 1 := by constructor <;> norm_num
  have hlt : (1 / 4 : ℝ) < 1 / 2 := by norm_num
  refine ⟨⟨h4, h2, hlt⟩,
    claim_C10_prior_transform_components.1 (fun _ => (1 / 2 : ℝ)),
    ⟨claim_C10_prior_transform_components.2.1 h4 h2 hlt,
      claim_C10_prior_transform_components.2.2.1 h4 h2 hlt,
      claim_C10_prior_transform_components.2.2.2.1 h4 h2 hlt⟩,
    claim_C10_prior_transform_components.2.2.2.2 (1 / 2) h2⟩

end UltraNest
